import Mathlib

/-!
Shallow embedding of the gluamsgpack encoder (PeerDB-io/gluamsgpack, lib.go).

The Go code serializes gopher-lua values into MessagePack bytes.  Bytes are
modelled as `Nat` (each produced byte is < 256), buffers as `List Nat`,
machine integers as `Nat`/`Int` with explicit `% 2^w` where Go truncates,
and fallible code as `Except`.  Go's unbounded recursion over heap-allocated
Lua tables is modelled with an explicit fuel parameter; running out of fuel
is a distinct error (`EncErr.outOfFuel`) that the original code cannot
produce, and every theorem either holds for all fuel or supplies enough.
-/

namespace Gluamsgpack

/-- Big-endian bytes of width `w` for value `n`; byte `j` (0 = most
significant) is `n / 2^(8*(w-1-j)) % 256`.  This models Go's
`binary.BigEndian.AppendUint16/32/64` at widths 2/4/8 (conversion of a wider
integer to `uintN` truncates, which the `% 256` at each position realizes). -/
def beBytes : Nat → Nat → List Nat
  | 0, _ => []
  | w + 1, n => n / 2 ^ (8 * w) % 256 :: beBytes w n

/-- Value of a big-endian byte list (inverse of `beBytes` on in-range input). -/
def beVal : List Nat → Nat
  | [] => 0
  | b :: bs => b * 2 ^ (8 * bs.length) + beVal bs

/-- Two's-complement truncation of an `Int` to `w` bytes, as the unsigned
`Nat` holding the same bit pattern: Go's `uintN(i)` for `i` an `int64`. -/
def tc (w : Nat) (i : Int) : Nat := (i % ((2 : Int) ^ (8 * w))).toNat

/-- Two's-complement reading of a big-endian byte list: the signed value whose
bit pattern the bytes spell.  Used to state (not to define) what the encoded
payloads denote. -/
def tcVal (p : List Nat) : Int :=
  if beVal p < 2 ^ (8 * p.length - 1) then (beVal p : Int)
  else (beVal p : Int) - 2 ^ (8 * p.length)

/-- Go `func (s Raw) PackMsg`: splice the bytes in verbatim. -/
def Raw.PackMsg (s : List Nat) (buf : List Nat) : List Nat := buf ++ s

/-- Go `func (s Str) PackMsg` (lib.go lines 131-146). -/
def Str.PackMsg (s : List Nat) (buf : List Nat) : List Nat :=
  (if s.length < 32 then buf ++ [0xa0 ||| (s.length % 256)]
   else if s.length < 0x100 then buf ++ [0xd9, s.length % 256]
   else if s.length < 0x10000 then buf ++ 0xda :: beBytes 2 s.length
   else buf ++ 0xdb :: beBytes 4 s.length) ++ s

/-- Go `func (s Bin) PackMsg` (lib.go lines 148-162). -/
def Bin.PackMsg (s : List Nat) (buf : List Nat) : List Nat :=
  (if s.length < 0x100 then buf ++ [0xc4, s.length % 256]
   else if s.length < 0x10000 then buf ++ 0xc5 :: beBytes 2 s.length
   else buf ++ 0xc6 :: beBytes 4 s.length) ++ s

/-- Go `func (i Signed) PackMsg` (lib.go lines 164-180).  The Go guards are
`i > -32 && i < 0x80`, then `math.MinInt8 <= i <= math.MaxInt8`, etc.; the
appended payloads are `byte(i)`, `byte(int8(i))`, `uint16(i)`, `uint32(i)`,
`uint64(i)`, i.e. two's-complement truncations. -/
def Signed.PackMsg (i : Int) (buf : List Nat) : List Nat :=
  if -32 < i ∧ i < 0x80 then buf ++ [tc 1 i]
  else if -128 ≤ i ∧ i ≤ 127 then buf ++ [0xd0, tc 1 i]
  else if -32768 ≤ i ∧ i ≤ 32767 then buf ++ 0xd1 :: beBytes 2 (tc 2 i)
  else if -2147483648 ≤ i ∧ i ≤ 2147483647 then buf ++ 0xd2 :: beBytes 4 (tc 4 i)
  else buf ++ 0xd3 :: beBytes 8 (tc 8 i)

/-- Go `func (u Unsigned) PackMsg` (lib.go lines 182-198).  `u` is a Go
`uint64`; the model takes any `Nat` and the byte writers truncate exactly
where the Go conversions do. -/
def Unsigned.PackMsg (u : Nat) (buf : List Nat) : List Nat :=
  if u < 0x80 then buf ++ [u % 256]
  else if u ≤ 0xff then buf ++ [0xcc, u % 256]
  else if u ≤ 0xffff then buf ++ 0xcd :: beBytes 2 u
  else if u ≤ 0xffffffff then buf ++ 0xce :: beBytes 4 u
  else buf ++ 0xcf :: beBytes 8 u

/-- Go `func (f F32) PackMsg`: marker then the 4 bytes of
`math.Float32bits(f)`, which the model carries as an opaque `Nat`. -/
def F32.PackMsg (bits : Nat) (buf : List Nat) : List Nat :=
  buf ++ 0xca :: beBytes 4 bits

/-- Go `func (f F64) PackMsg`: marker then the 8 bytes of
`math.Float64bits(f)`. -/
def F64.PackMsg (bits : Nat) (buf : List Nat) : List Nat :=
  buf ++ 0xcb :: beBytes 8 bits

/-- Go `func (t Time32) PackMsg`: `0xd6, 0xff` then `uint32(t.Unix())`;
`s` is the `int64` of seconds, `uint32(s)` is `tc 4 s`. -/
def Time32.PackMsg (s : Int) (buf : List Nat) : List Nat :=
  buf ++ [0xd6, 0xff] ++ beBytes 4 (tc 4 s)

/-- Go `func (t Time64) PackMsg`: `0xd7, 0xff` then the single big-endian
word `uint64(ns)<<34 | uint64(s)`.  `ns = t.Nanosecond()` is a non-negative
Go `int`, so `uint64(ns) = ns`; the shift wraps modulo `2^64`. -/
def Time64.PackMsg (s : Int) (ns : Nat) (buf : List Nat) : List Nat :=
  buf ++ [0xd7, 0xff] ++ beBytes 8 ((ns * 2 ^ 34 % 2 ^ 64) ||| tc 8 s)

/-- Go `func (t Time96) PackMsg`: `0xc7, 12, 0xff` then `uint32(ns)` then
`uint64(s)`. -/
def Time96.PackMsg (s : Int) (ns : Nat) (buf : List Nat) : List Nat :=
  buf ++ [0xc7, 12, 0xff] ++ beBytes 4 (ns % 2 ^ 32) ++ beBytes 8 (tc 8 s)

/-- Go `func (t Time) PackMsg` (lib.go lines 230-240).  The Go guard is
`s & (-1 << 34) != 0`: some bit of the two's-complement `int64` pattern of
`s` outside the low 34 bits is set, i.e. the bit pattern `tc 8 s`, viewed as
a `Nat`, is at least `2^34`; the model writes that as `tc 8 s / 2^34 ≠ 0`. -/
def Time.PackMsg (s : Int) (ns : Nat) (buf : List Nat) : List Nat :=
  if tc 8 s / 2 ^ 34 ≠ 0 then Time96.PackMsg s ns buf
  else if ns ≠ 0 then Time64.PackMsg s ns buf
  else Time32.PackMsg s buf

/-- Go `func (x Ext) PackMsg` (lib.go lines 242-266).  Note the non-fixext
branches append the marker and then call `Unsigned(l).PackMsg(buf)` for the
length, and finally `byte(x.x)` (the `int8` type code, two's complement)
followed by the payload. -/
def Ext.PackMsg (x : Int) (data : List Nat) (buf : List Nat) : List Nat :=
  (if data.length = 1 then buf ++ [0xd4]
   else if data.length = 2 then buf ++ [0xd5]
   else if data.length = 4 then buf ++ [0xd6]
   else if data.length = 8 then buf ++ [0xd7]
   else if data.length = 16 then buf ++ [0xd8]
   else if data.length ≤ 0xff then Unsigned.PackMsg data.length (buf ++ [0xc7])
   else if data.length ≤ 0xffff then Unsigned.PackMsg data.length (buf ++ [0xc8])
   else Unsigned.PackMsg data.length (buf ++ [0xc9])) ++ tc 1 x :: data

/-- Observations the dispatcher makes of a `lua.LNumber` (a Go `float64`).
`intRT` is the Go test `v == lua.LNumber(int64(v))` (the value is integral
and representable as a 64-bit signed integer), `i64` is `int64(v)`,
`f32RT` is `v == lua.LNumber(float32(v))` (the value survives a round-trip
through 32-bit floating point), and `f32bits`/`f64bits` are
`math.Float32bits`/`math.Float64bits` of the value.  IEEE-754 arithmetic
itself is outside the shallow embedding; the encoder consumes a number only
through these observations, which the structure records. -/
structure LNumber : Type where
  i64 : Int
  intRT : Bool
  f32RT : Bool
  f32bits : Nat
  f64bits : Nat

/-- The `lua.LNumber` of a (small) integer, as the dispatcher observes it:
integral numbers in `int64` range satisfy the `intRT` round-trip test, and
the remaining observations are never consulted for them. -/
def intNum (i : Int) : LNumber := ⟨i, true, true, 0, 0⟩

/-- Continuation-byte range check used by `utf8Valid`. -/
def utf8Cont (lo hi c : Nat) : Bool := decide (lo ≤ c) && decide (c ≤ hi)

/-- Go `utf8.ValidString` on the byte list: standard UTF-8 acceptance
(no overlong forms, no surrogates, max U+10FFFF), per the accept ranges of
Go's unicode/utf8 package. -/
def utf8Valid : List Nat → Bool
  | [] => true
  | b :: bs =>
    if b < 0x80 then utf8Valid bs
    else if 0xc2 ≤ b ∧ b ≤ 0xdf then
      match bs with
      | c1 :: bs1 => utf8Cont 0x80 0xbf c1 && utf8Valid bs1
      | [] => false
    else if 0xe0 ≤ b ∧ b ≤ 0xef then
      match bs with
      | c1 :: c2 :: bs2 =>
        utf8Cont (if b = 0xe0 then 0xa0 else 0x80) (if b = 0xed then 0x9f else 0xbf) c1
          && utf8Cont 0x80 0xbf c2 && utf8Valid bs2
      | _ => false
    else if 0xf0 ≤ b ∧ b ≤ 0xf4 then
      match bs with
      | c1 :: c2 :: c3 :: bs3 =>
        utf8Cont (if b = 0xf0 then 0x90 else 0x80) (if b = 0xf4 then 0x8f else 0xbf) c1
          && utf8Cont 0x80 0xbf c2 && utf8Cont 0x80 0xbf c3 && utf8Valid bs3
      | _ => false
    else false

/-- Error raised by the encoder.  Go raises Lua errors via `ls.RaiseError`;
`cycle` is the "object contained cycle" error from `markDupe`, `unencodable`
covers the "cannot encode" raises, and `outOfFuel` is an artifact of the
fuelled model only (the Go code never produces it). -/
inductive EncErr : Type where
  | cycle
  | unencodable
  | outOfFuel
  deriving DecidableEq, Repr

mutual
/-- A gopher-lua value as the dispatcher `lmEncode` distinguishes them.
A Lua table is a heap object with identity; here its identity is the `id`
field of `LTable` and its contents are carried inline, so shared structure
(or the prefix of a cyclic structure actually explored before the cycle
error) is written as two subterms with equal `id`.  `withOverride sub` is a
value whose `__msgpack` metafield, invoked by the dispatcher's loop, returns
`sub`. -/
inductive LValue : Type where
  | nil : LValue
  | bool (b : Bool) : LValue
  | num (n : LNumber) : LValue
  | str (s : List Nat) : LValue
  | table (t : LTable) : LValue
  | udata (u : UserData) : LValue
  | withOverride (sub : LValue) : LValue

/-- A `*lua.LTable`: identity `id`, array part `arr` (1-indexed contiguous
elements, `ls.ObjLen` = `arr.length`) and remaining key/value entries
`hash` in the order `ForEach` visits them. -/
inductive LTable : Type where
  | mk (id : Nat) (arr : List LValue) (hash : List (LValue × LValue)) : LTable

/-- The `Value` payload of a `*lua.LUserData`, one constructor per arm of
the Go type switch in `lmEncode` (lib.go lines 331-361): first the marker
types implementing `Packer`, then the `Array`/`Map` table wrappers (absent
reference = `none`), then the plain Go payloads, and `goOther` for any other
payload (the Go `default:` arm, which raises). -/
inductive UserData : Type where
  | raw (s : List Nat) : UserData
  | strM (s : List Nat) : UserData
  | binM (s : List Nat) : UserData
  | signedM (i : Int) : UserData
  | unsignedM (u : Nat) : UserData
  | f32M (bits : Nat) : UserData
  | f64M (bits : Nat) : UserData
  | time32M (s : Int) : UserData
  | time64M (s : Int) (ns : Nat) : UserData
  | time96M (s : Int) (ns : Nat) : UserData
  | timeM (s : Int) (ns : Nat) : UserData
  | extM (x : Int) (data : List Nat) : UserData
  | arrayM (t : Option LTable) : UserData
  | mapM (t : Option LTable) : UserData
  | goStr (s : List Nat) : UserData
  | goBytes (s : List Nat) : UserData
  | goU64 (u : Nat) : UserData
  | goI64 (i : Int) : UserData
  | goTime (s : Int) (ns : Nat) : UserData
  | goOther : UserData
end

/-- Identity of a table. -/
def LTable.id : LTable → Nat
  | ⟨i, _, _⟩ => i

/-- Array part of a table. -/
def LTable.arr : LTable → List LValue
  | ⟨_, a, _⟩ => a

/-- Hash part of a table. -/
def LTable.hash : LTable → List (LValue × LValue)
  | ⟨_, _, h⟩ => h

/-- gopher-lua `ls.ObjLen` on a table with no metatable: the array-part
length. -/
def LTable.objLen (t : LTable) : Nat := t.arr.length

/-- gopher-lua `v.RawGetInt n` for `n ≥ 1`: the n-th array-part element, or
nil when out of range. -/
def LTable.rawGetInt (t : LTable) (n : Nat) : LValue := t.arr.getD (n - 1) .nil

/-- Array-part entries as `ForEach` yields them: keys are the Lua numbers
`i, i+1, ...` paired with the stored values. -/
def arrayEntries (i : Int) : List LValue → List (LValue × LValue)
  | [] => []
  | x :: xs => (.num (intNum i), x) :: arrayEntries (i + 1) xs

/-- gopher-lua `v.ForEach` visit order on a table: the array part (1-based
integer keys) followed by the hash entries. -/
def forEachPairs (t : LTable) : List (LValue × LValue) :=
  arrayEntries 1 t.arr ++ t.hash

/-- Array length header, inline in Go's `lmEncodeArray` (lib.go 376-385):
`0x90|byte(vlen)` below 16, else 16- or 32-bit big-endian forms. -/
def arrayHeader (vlen : Nat) : List Nat :=
  if vlen < 16 then [0x90 ||| (vlen % 256)]
  else if vlen < 0x10000 then 0xdc :: beBytes 2 vlen
  else 0xdd :: beBytes 4 vlen

/-- Map length header, inline in Go's `lmEncodeMap` (lib.go 406-415). -/
def mapHeader (vlen : Nat) : List Nat :=
  if vlen < 16 then [0x80 ||| (vlen % 256)]
  else if vlen < 0x10000 then 0xde :: beBytes 2 vlen
  else 0xdf :: beBytes 4 vlen

/-- Go `markDupe` (lib.go 275-281): raise the cycle error if the table
identity was already tracked, otherwise track it.  The Go `dupe` map is
mutated in place; the model threads the updated set. -/
def markDupe (dupe : List Nat) (id : Nat) : Except EncErr (List Nat) :=
  if dupe.contains id then .error .cycle else .ok (id :: dupe)

mutual
/-- Go `lmEncode` (lib.go 283-366).  The `__msgpack` metafield loop is the
`withOverride` arm (one constructor per loop iteration); then the type
switch.  In the `*lua.LTable` arm, `vlen := ls.ObjLen(v)` and a zero length
selects map encoding.  In the `Array` marker arm the Go code computes
`vlen := ls.ObjLen(v)` where `v` is the *wrapper userdata* — a userdata
whose metatable is nil (see `marker` in lib.go 116-125), for which
gopher-lua's `ObjLen` returns 0 — so the literal 0 is passed on.  Results
thread the output buffer and the mutated dupe set. -/
def lmEncode : Nat → LValue → List Nat → List Nat → Except EncErr (List Nat × List Nat)
  | 0, _, _, _ => .error .outOfFuel
  | fuel + 1, v, buf, dupe =>
    match v with
    | .withOverride sub => lmEncode fuel sub buf dupe
    | .nil => .ok (buf ++ [0xc0], dupe)
    | .bool b => .ok (buf ++ [if b then 0xc2 else 0xc3], dupe)
    | .num n =>
      .ok ((if n.intRT then Signed.PackMsg n.i64 buf
            else if n.f32RT then F32.PackMsg n.f32bits buf
            else F64.PackMsg n.f64bits buf), dupe)
    | .str s =>
      .ok ((if utf8Valid s then Str.PackMsg s buf else Bin.PackMsg s buf), dupe)
    | .table t =>
      if t.objLen = 0 then lmEncodeMap fuel t buf dupe
      else lmEncodeArray fuel t t.objLen buf dupe
    | .udata u =>
      match u with
      | .raw s => .ok (Raw.PackMsg s buf, dupe)
      | .strM s => .ok (Str.PackMsg s buf, dupe)
      | .binM s => .ok (Bin.PackMsg s buf, dupe)
      | .signedM i => .ok (Signed.PackMsg i buf, dupe)
      | .unsignedM u' => .ok (Unsigned.PackMsg u' buf, dupe)
      | .f32M bits => .ok (F32.PackMsg bits buf, dupe)
      | .f64M bits => .ok (F64.PackMsg bits buf, dupe)
      | .time32M s => .ok (Time32.PackMsg s buf, dupe)
      | .time64M s ns => .ok (Time64.PackMsg s ns buf, dupe)
      | .time96M s ns => .ok (Time96.PackMsg s ns buf, dupe)
      | .timeM s ns => .ok (Time.PackMsg s ns buf, dupe)
      | .extM x data => .ok (Ext.PackMsg x data buf, dupe)
      | .arrayM none => .ok (buf ++ [0xc0], dupe)
      | .arrayM (some t) => lmEncodeArray fuel t 0 buf dupe
      | .mapM none => .ok (buf ++ [0xc0], dupe)
      | .mapM (some t) => lmEncodeMap fuel t buf dupe
      | .goStr s => .ok (Str.PackMsg s buf, dupe)
      | .goBytes s => .ok (Bin.PackMsg s buf, dupe)
      | .goU64 u' => .ok (Unsigned.PackMsg u' buf, dupe)
      | .goI64 i => .ok (Signed.PackMsg i buf, dupe)
      | .goTime s ns => .ok (Time.PackMsg s ns buf, dupe)
      | .goOther => .error .unencodable

/-- Go `lmEncodeArray` (lib.go 368-390): mark the table, emit the header for
`vlen`, then dispatch `v.RawGetInt(i+1)` for `i` in `0..vlen-1`. -/
def lmEncodeArray : Nat → LTable → Nat → List Nat → List Nat →
    Except EncErr (List Nat × List Nat)
  | 0, _, _, _, _ => .error .outOfFuel
  | fuel + 1, t, vlen, buf, dupe =>
    match markDupe dupe t.id with
    | .error e => .error e
    | .ok dupe' =>
      lmEncodeList fuel ((List.range vlen).map fun i => t.rawGetInt (i + 1))
        (buf ++ arrayHeader vlen) dupe'

/-- The element loop of `lmEncodeArray`, threading buffer and dupe set. -/
def lmEncodeList : Nat → List LValue → List Nat → List Nat →
    Except EncErr (List Nat × List Nat)
  | 0, _, _, _ => .error .outOfFuel
  | _ + 1, [], buf, dupe => .ok (buf, dupe)
  | fuel + 1, x :: xs, buf, dupe =>
    match lmEncode fuel x buf dupe with
    | .error e => .error e
    | .ok (buf', dupe') => lmEncodeList fuel xs buf' dupe'

/-- Go `lmEncodeMap` (lib.go 392-417): mark the table, encode every
key/value entry into a scratch buffer while counting them, then emit the
header for the count followed by the scratch buffer. -/
def lmEncodeMap : Nat → LTable → List Nat → List Nat →
    Except EncErr (List Nat × List Nat)
  | 0, _, _, _ => .error .outOfFuel
  | fuel + 1, t, buf, dupe =>
    match markDupe dupe t.id with
    | .error e => .error e
    | .ok dupe' =>
      match lmEncodePairs fuel (forEachPairs t) [] dupe' with
      | .error e => .error e
      | .ok (mapbuf, dupe'') =>
        .ok (buf ++ mapHeader (forEachPairs t).length ++ mapbuf, dupe'')

/-- The `ForEach` loop of `lmEncodeMap`: key then value through the full
dispatcher, threading buffer and dupe set. -/
def lmEncodePairs : Nat → List (LValue × LValue) → List Nat → List Nat →
    Except EncErr (List Nat × List Nat)
  | 0, _, _, _ => .error .outOfFuel
  | _ + 1, [], buf, dupe => .ok (buf, dupe)
  | fuel + 1, (k, v) :: xs, buf, dupe =>
    match lmEncode fuel k buf dupe with
    | .error e => .error e
    | .ok (buf', dupe') =>
      match lmEncode fuel v buf' dupe' with
      | .error e => .error e
      | .ok (buf'', dupe'') => lmEncodePairs fuel xs buf'' dupe''
end

mutual
/-- Fuel sufficient to fully encode a value (independent of table ids). -/
def encFuel : LValue → Nat
  | .withOverride sub => 1 + encFuel sub
  | .table t => 1 + encFuelT t
  | .udata u => 1 + encFuelU u
  | _ => 1

/-- Fuel sufficient for `lmEncodeArray`/`lmEncodeMap` on a table (an upper
bound: twice the list fuel also covers the synthetic integer keys that the
map path's `ForEach` pairs add in front of the array part). -/
def encFuelT : LTable → Nat
  | ⟨_, arr, hash⟩ => 2 + (encFuelL arr + encFuelL arr) + encFuelP hash

/-- Fuel sufficient for a userdata payload. -/
def encFuelU : UserData → Nat
  | .arrayM (some t) => 1 + encFuelT t
  | .mapM (some t) => 1 + encFuelT t
  | _ => 1

/-- Fuel sufficient for `lmEncodeList`. -/
def encFuelL : List LValue → Nat
  | [] => 1
  | x :: xs => 1 + encFuel x + encFuelL xs

/-- Fuel sufficient for `lmEncodePairs`. -/
def encFuelP : List (LValue × LValue) → Nat
  | [] => 1
  | (k, v) :: xs => 1 + encFuel k + encFuel v + encFuelP xs
end

/-- Go `MsgEncode` (lib.go 268-273): allocate a fresh empty dupe set, run
the dispatcher once on the argument with a nil buffer, and return the
produced bytes. -/
def MsgEncode (v : LValue) : Except EncErr (List Nat) :=
  Prod.fst <$> lmEncode (encFuel v) v [] []

mutual
/-- All table identities occurring in a value, in traversal order: the
tables themselves plus those wrapped in `Array`/`Map` markers. -/
def tableIds : LValue → List Nat
  | .withOverride sub => tableIds sub
  | .table t => tableIdsT t
  | .udata u => tableIdsU u
  | _ => []

/-- Table identities of a table and its contents. -/
def tableIdsT : LTable → List Nat
  | ⟨i, arr, hash⟩ => i :: (tableIdsL arr ++ tableIdsP hash)

/-- Table identities inside a userdata payload. -/
def tableIdsU : UserData → List Nat
  | .arrayM (some t) => tableIdsT t
  | .mapM (some t) => tableIdsT t
  | _ => []

/-- Table identities of a list of values. -/
def tableIdsL : List LValue → List Nat
  | [] => []
  | x :: xs => tableIds x ++ tableIdsL xs

/-- Table identities of a list of key/value pairs. -/
def tableIdsP : List (LValue × LValue) → List Nat
  | [] => []
  | (k, v) :: xs => tableIds k ++ tableIds v ++ tableIdsP xs
end

lemma beBytes_length (w n : Nat) : (beBytes w n).length = w := by
  induction w generalizing n with
  | zero => simp [beBytes]
  | succ w ih => simp [beBytes, ih]

lemma beVal_beBytes (w n : Nat) : beVal (beBytes w n) = n % 2 ^ (8 * w) := by
  induction w generalizing n with
  | zero => simp [beBytes, beVal, Nat.mod_one]
  | succ w ih =>
    simp only [beBytes, beVal, beBytes_length, ih]
    rw [show 8 * (w + 1) = 8 * w + 8 by ring, pow_add, Nat.mod_mul]
    norm_num
    ring

lemma tc_lt (w : Nat) (i : Int) : tc w i < 2 ^ (8 * w) := by
  have h1 : 0 ≤ i % ((2 : Int) ^ (8 * w)) := Int.emod_nonneg _ (by positivity)
  have h2 : i % ((2 : Int) ^ (8 * w)) < (2 : Int) ^ (8 * w) :=
    Int.emod_lt_of_pos _ (by positivity)
  have h3 : ((2 ^ (8 * w) : Nat) : Int) = (2 : Int) ^ (8 * w) := by push_cast; ring
  unfold tc
  omega

lemma tc_eq_self (w : Nat) (i : Int) (h1 : 0 ≤ i) (h2 : i < 2 ^ (8 * w)) :
    (tc w i : Int) = i := by
  unfold tc
  have h3 : ((2 ^ (8 * w) : Nat) : Int) = (2 : Int) ^ (8 * w) := by push_cast; ring
  rw [Int.emod_eq_of_lt h1 (by omega)]
  omega

lemma tc_eq_add (w : Nat) (i : Int) (h1 : -(2 ^ (8 * w)) ≤ i) (h2 : i < 0) :
    (tc w i : Int) = i + 2 ^ (8 * w) := by
  unfold tc
  have h3 : ((2 ^ (8 * w) : Nat) : Int) = (2 : Int) ^ (8 * w) := by push_cast; ring
  have h4 : (0 : Int) < (2 : Int) ^ (8 * w) := by positivity
  have h5 : i % ((2 : Int) ^ (8 * w)) = (i + 2 ^ (8 * w)) % ((2 : Int) ^ (8 * w)) := by
    have := Int.add_mul_emod_self_left i ((2 : Int) ^ (8 * w)) 1
    rw [mul_one] at this
    exact this.symm
  rw [h5, Int.emod_eq_of_lt (by omega) (by omega)]
  omega

/-- The signed value the bytes `beBytes w (tc w i)` spell is `i` itself, for
`i` in the `w`-byte two's-complement range. -/
lemma tcVal_beBytes_tc (w : Nat) (i : Int) (hw : 0 < w)
    (h1 : -(2 ^ (8 * w - 1)) ≤ i) (h2 : i < 2 ^ (8 * w - 1)) :
    tcVal (beBytes w (tc w i)) = i := by
  have hNH : (2 : Int) ^ (8 * w) = 2 * 2 ^ (8 * w - 1) := by
    rw [← pow_succ']
    congr 1
    omega
  have hNHn : (2 : Nat) ^ (8 * w) = 2 * 2 ^ (8 * w - 1) := by
    rw [← pow_succ']
    congr 1
    omega
  have hlt := tc_lt w i
  have hcast : ((2 ^ (8 * w) : Nat) : Int) = (2 : Int) ^ (8 * w) := by push_cast; ring
  have hcast2 : ((2 ^ (8 * w - 1) : Nat) : Int) = (2 : Int) ^ (8 * w - 1) := by
    push_cast; ring
  have hval : (tc w i : Int) = i ∨ (tc w i : Int) = i + 2 ^ (8 * w) := by
    rcases le_or_lt 0 i with hpos | hneg
    · exact Or.inl (tc_eq_self w i hpos (by omega))
    · exact Or.inr (tc_eq_add w i (by omega) hneg)
  unfold tcVal
  rw [beVal_beBytes, beBytes_length, Nat.mod_eq_of_lt hlt]
  split_ifs with hc
  · omega
  · omega

/-- The in-range proposition for `w`-byte two's-complement storage. -/
def fitsTC (w : Nat) (i : Int) : Prop :=
  -(2 ^ (8 * w - 1)) ≤ i ∧ i < 2 ^ (8 * w - 1)

instance (w : Nat) (i : Int) : Decidable (fitsTC w i) := by
  unfold fitsTC; infer_instance

/-- The marker byte the Go `Signed.PackMsg` emits for each payload width. -/
def signedMarker : Nat → Nat
  | 1 => 0xd0
  | 2 => 0xd1
  | 4 => 0xd2
  | _ => 0xd3

/-- The smallest of the widths 1, 2, 4, 8 bytes whose two's-complement range
contains `i` (defaulting to 8). -/
def signedWidth (i : Int) : Nat :=
  if fitsTC 1 i then 1 else if fitsTC 2 i then 2 else if fitsTC 4 i then 4 else 8

/-- Claim C1, counterexample: the claim asserts one byte for every value in
the interval [-32, 127], but the Go guard is the strict `i > -32`, so -32
falls through to the int8 branch and two bytes `0xd0 0xe0` are appended. -/
theorem claim_C1_counterexample :
    Signed.PackMsg (-32) [] = [0xd0, 0xe0] ∧ (Signed.PackMsg (-32) []).length ≠ 1 := by
  constructor <;> decide

/-- Claim C1 (amended): for every signed 64-bit integer in [-31, 127] the
packer appends exactly the one byte holding the value's bit pattern (which
reads back as the value); for every other signed 64-bit integer it appends
the marker for the smallest of the 8/16/32/64-bit two's-complement
big-endian forms that fits, followed by that form's bytes, which read back
as the value. -/
theorem claim_C1 (i : Int) (h8 : fitsTC 8 i) :
    (-31 ≤ i ∧ i ≤ 127 →
      Signed.PackMsg i [] = [tc 1 i] ∧ tcVal [tc 1 i] = i)
    ∧ ((i < -31 ∨ 127 < i) →
      Signed.PackMsg i [] =
          signedMarker (signedWidth i) ::
            beBytes (signedWidth i) (tc (signedWidth i) i)
        ∧ tcVal (beBytes (signedWidth i) (tc (signedWidth i) i)) = i
        ∧ fitsTC (signedWidth i) i
        ∧ ∀ w', (w' = 1 ∨ w' = 2 ∨ w' = 4 ∨ w' = 8) → fitsTC w' i →
            signedWidth i ≤ w') := by
  obtain ⟨h8a, h8b⟩ := h8
  norm_num at h8a h8b
  constructor
  · rintro ⟨ha, hb⟩
    constructor
    · unfold Signed.PackMsg
      rw [if_pos (by constructor <;> omega)]
      rfl
    · have := tcVal_beBytes_tc 1 i (by norm_num) (by norm_num; omega) (by norm_num; omega)
      simpa [beBytes, Nat.mod_eq_of_lt (show tc 1 i < 256 by have := tc_lt 1 i; norm_num at this; omega)] using this
  · intro hout
    have hw1 : fitsTC 1 i ↔ (-128 ≤ i ∧ i < 128) := by unfold fitsTC; norm_num
    have hw2 : fitsTC 2 i ↔ (-32768 ≤ i ∧ i < 32768) := by unfold fitsTC; norm_num
    have hw4 : fitsTC 4 i ↔ (-2147483648 ≤ i ∧ i < 2147483648) := by unfold fitsTC; norm_num
    have hw8 : fitsTC 8 i ↔ (-9223372036854775808 ≤ i ∧ i < 9223372036854775808) := by
      unfold fitsTC; norm_num
    by_cases hc1 : -128 ≤ i ∧ i < 128
    · have hsw : signedWidth i = 1 := by unfold signedWidth; rw [if_pos (hw1.mpr hc1)]
      refine ⟨?_, ?_, ?_, ?_⟩
      · unfold Signed.PackMsg
        rw [if_neg (by omega), if_pos (by constructor <;> omega)]
        simp [hsw, signedMarker, beBytes,
          Nat.mod_eq_of_lt (show tc 1 i < 256 by have := tc_lt 1 i; norm_num at this; omega)]
      · rw [hsw]
        exact tcVal_beBytes_tc 1 i (by norm_num) (by norm_num; omega) (by norm_num; omega)
      · rw [hsw, hw1]; omega
      · intro w' _ _; omega
    · by_cases hc2 : -32768 ≤ i ∧ i < 32768
      · have hsw : signedWidth i = 2 := by
          unfold signedWidth
          rw [if_neg (by rw [hw1]; omega), if_pos (hw2.mpr hc2)]
        refine ⟨?_, ?_, ?_, ?_⟩
        · unfold Signed.PackMsg
          rw [if_neg (by omega), if_neg (by omega), if_pos (by constructor <;> omega)]
          simp [hsw, signedMarker]
        · rw [hsw]
          exact tcVal_beBytes_tc 2 i (by norm_num) (by norm_num; omega) (by norm_num; omega)
        · rw [hsw, hw2]; omega
        · rintro w' (rfl | rfl | rfl | rfl) hf <;> simp_all [hsw]
      · by_cases hc4 : -2147483648 ≤ i ∧ i < 2147483648
        · have hsw : signedWidth i = 4 := by
            unfold signedWidth
            rw [if_neg (by rw [hw1]; omega), if_neg (by rw [hw2]; omega),
              if_pos (hw4.mpr hc4)]
          refine ⟨?_, ?_, ?_, ?_⟩
          · unfold Signed.PackMsg
            rw [if_neg (by omega), if_neg (by omega), if_neg (by omega),
              if_pos (by constructor <;> omega)]
            simp [hsw, signedMarker]
          · rw [hsw]
            exact tcVal_beBytes_tc 4 i (by norm_num) (by norm_num; omega) (by norm_num; omega)
          · rw [hsw, hw4]; omega
          · rintro w' (rfl | rfl | rfl | rfl) hf <;> simp_all [hsw, hw1, hw2]
        · have hsw : signedWidth i = 8 := by
            unfold signedWidth
            rw [if_neg (by rw [hw1]; omega), if_neg (by rw [hw2]; omega),
              if_neg (by rw [hw4]; omega)]
          refine ⟨?_, ?_, ?_, ?_⟩
          · unfold Signed.PackMsg
            rw [if_neg (by omega), if_neg (by omega), if_neg (by omega),
              if_neg (by omega)]
            simp [hsw, signedMarker]
          · rw [hsw]
            exact tcVal_beBytes_tc 8 i (by norm_num) (by norm_num; omega) (by norm_num; omega)
          · rw [hsw, hw8]; omega
          · rintro w' (rfl | rfl | rfl | rfl) hf <;> simp_all [hsw, hw1, hw2, hw4]

/-- Witness for claim C1 at the concrete inputs 100 (one byte) and 300
(16-bit form). -/
theorem claim_C1_witness :
    (Signed.PackMsg 100 [] = [tc 1 100] ∧ tcVal [tc 1 100] = 100)
    ∧ Signed.PackMsg 300 [] =
        signedMarker (signedWidth 300) :: beBytes (signedWidth 300) (tc (signedWidth 300) 300) := by
  constructor
  · exact (claim_C1 100 (by constructor <;> norm_num)).1 (by norm_num)
  · exact ((claim_C1 300 (by constructor <;> norm_num)).2 (by norm_num)).1

/-- Claim C2: the dispatcher encodes the boolean true as the single byte
0xc2 and false as the single byte 0xc3 (lib.go 304-309; these are indeed
swapped relative to the MessagePack standard assignment, and the
repository's own test asserts exactly these bytes). -/
theorem claim_C2 :
    MsgEncode (.bool true) = .ok [0xc2] ∧ MsgEncode (.bool false) = .ok [0xc3] := by
  constructor <;> rfl

set_option maxRecDepth 4000 in
/-- Claim C3, evaluated at the failing input: an Ext payload of 128 zero
bytes with type code 5.  The claim (and the MessagePack ext8 layout) calls
for the marker 0xc7 followed directly by the raw length byte 0x80; the Go
code instead delegates the length to `Unsigned.PackMsg`, which emits its own
uint8 marker 0xcc before the length, so the wire bytes are
`0xc7 0xcc 0x80 0x05 payload`. -/
theorem claim_C3 :
    Ext.PackMsg 5 (List.replicate 128 0) [] =
        [0xc7, 0xcc, 0x80, 0x05] ++ List.replicate 128 0
    ∧ Ext.PackMsg 5 (List.replicate 128 0) [] ≠
        [0xc7, 0x80, 0x05] ++ List.replicate 128 0 := by
  constructor <;> decide

/-- Claim C4, evaluated at the failing input: an Array marker wrapping the
table with one element 42.  The Go code computes `vlen := ls.ObjLen(v)` on
the wrapper userdata (whose metatable is nil), which gopher-lua reports as
0, so the dispatcher emits the empty-array header 0x90 and encodes none of
the wrapped table's elements — not the header 0x91 followed by the element
as the claim states.  The absent-wrapper half of the claim does hold: a nil
Array reference encodes as Nil. -/
theorem claim_C4 :
    MsgEncode (.udata (.arrayM (some ⟨0, [.num (intNum 42)], []⟩))) = .ok [0x90]
    ∧ MsgEncode (.udata (.arrayM (some ⟨0, [.num (intNum 42)], []⟩))) ≠
        .ok [0x91, 42]
    ∧ MsgEncode (.udata (.arrayM none)) = .ok [0xc0] := by
  refine ⟨rfl, ?_, rfl⟩
  intro h
  have h2 : ([0x90] : List Nat) = [0x91, 42] := by
    injection (rfl.trans h :
      (Except.ok [0x90] : Except EncErr (List Nat)) = .ok [0x91, 42])
  simp at h2

/-- Claim C5, counterexample: the claim says every marker wrapping an absent
or empty container encodes as Nil, but a Map marker wrapping a present empty
table encodes as the empty-map header 0x80, not as Nil 0xc0 (the
repository's own test likewise asserts `mp.encode(mp.array{})` equals the
0x90 header, not Nil). -/
theorem claim_C5_counterexample :
    MsgEncode (.udata (.mapM (some ⟨0, [], []⟩))) = .ok [0x80]
    ∧ MsgEncode (.udata (.mapM (some ⟨0, [], []⟩))) ≠ .ok [0xc0] := by
  refine ⟨rfl, ?_⟩
  intro h
  have h2 : ([0x80] : List Nat) = [0xc0] := by
    injection (rfl.trans h :
      (Except.ok [0x80] : Except EncErr (List Nat)) = .ok [0xc0])
  simp at h2

/-- Claim C5 (amended): a marker wrapping an absent container encodes as
Nil; a marker wrapping a present but empty container encodes as the
corresponding empty-container header (0x90 for Array, 0x80 for Map), not as
Nil. -/
theorem claim_C5 :
    MsgEncode (.udata (.arrayM none)) = .ok [0xc0]
    ∧ MsgEncode (.udata (.mapM none)) = .ok [0xc0]
    ∧ (∀ id, MsgEncode (.udata (.arrayM (some ⟨id, [], []⟩))) = .ok [0x90])
    ∧ (∀ id, MsgEncode (.udata (.mapM (some ⟨id, [], []⟩))) = .ok [0x80]) := by
  refine ⟨rfl, rfl, fun id => ?_, fun id => ?_⟩
  · have h : MsgEncode (.udata (.arrayM (some ⟨id, [], []⟩))) =
        .ok [0x90 ||| (0 % 256)] := rfl
    rw [h]
    simp
  · have h : MsgEncode (.udata (.mapM (some ⟨id, [], []⟩))) =
        .ok [0x80 ||| (0 % 256)] := rfl
    rw [h]
    simp

/-- Claim C6: an explicit empty-array marker encodes as the compact
empty-array header 0x90; an explicit empty-map marker and an unmarked empty
table both encode as the compact empty-map header 0x80; and the two
single-byte encodings differ. -/
theorem claim_C6 (id id2 id3 : Nat) :
    MsgEncode (.udata (.arrayM (some ⟨id, [], []⟩))) = .ok [0x90]
    ∧ MsgEncode (.udata (.mapM (some ⟨id2, [], []⟩))) = .ok [0x80]
    ∧ MsgEncode (.table ⟨id3, [], []⟩) = .ok [0x80]
    ∧ ([0x90] : List Nat) ≠ [0x80] := by
  refine ⟨?_, ?_, ?_, by decide⟩
  · have h : MsgEncode (.udata (.arrayM (some ⟨id, [], []⟩))) =
        .ok [0x90 ||| (0 % 256)] := rfl
    rw [h]
    simp
  · have h : MsgEncode (.udata (.mapM (some ⟨id2, [], []⟩))) =
        .ok [0x80 ||| (0 % 256)] := rfl
    rw [h]
    simp
  · have h : MsgEncode (.table ⟨id3, [], []⟩) =
        .ok [0x80 ||| (0 % 256)] := rfl
    rw [h]
    simp

/-- Claim C7: the dispatcher's numeric branch.  If the number passes the Go
test `v == lua.LNumber(int64(v))` (it is mathematically integral and exactly
representable as a 64-bit signed integer, recorded as `intRT`) it is handed
to the signed-integer packer on `int64(v)`; otherwise, if it passes
`v == lua.LNumber(float32(v))` (it survives a round-trip through 32-bit
floating point, recorded as `f32RT`) the encoding is the 0xca marker plus
the 4 big-endian bytes of its float32 bits — 5 bytes total; otherwise it is
the 0xcb marker plus the 8 big-endian bytes of its float64 bits — 9 bytes
total. -/
theorem claim_C7 (n : LNumber) (buf dupe : List Nat) (fuel : Nat) :
    (n.intRT = true →
      lmEncode (fuel + 1) (.num n) buf dupe = .ok (Signed.PackMsg n.i64 buf, dupe))
    ∧ (n.intRT = false → n.f32RT = true →
      lmEncode (fuel + 1) (.num n) buf dupe = .ok (F32.PackMsg n.f32bits buf, dupe)
      ∧ F32.PackMsg n.f32bits buf = buf ++ 0xca :: beBytes 4 n.f32bits
      ∧ (F32.PackMsg n.f32bits buf).length = buf.length + 5)
    ∧ (n.intRT = false → n.f32RT = false →
      lmEncode (fuel + 1) (.num n) buf dupe = .ok (F64.PackMsg n.f64bits buf, dupe)
      ∧ F64.PackMsg n.f64bits buf = buf ++ 0xcb :: beBytes 8 n.f64bits
      ∧ (F64.PackMsg n.f64bits buf).length = buf.length + 9) := by
  refine ⟨fun h1 => ?_, fun h1 h2 => ⟨?_, rfl, ?_⟩, fun h1 h2 => ⟨?_, rfl, ?_⟩⟩
  · simp [lmEncode, h1]
  · simp [lmEncode, h1, h2]
  · simp [F32.PackMsg, beBytes_length]
  · simp [lmEncode, h1, h2]
  · simp [F64.PackMsg, beBytes_length]

/-- Witness for claim C7 at the number 10.5 (whose float32 bits are
0x41280000): the float32 branch produces the marker plus 4 payload bytes,
5 in total. -/
theorem claim_C7_witness :
    lmEncode 1 (.num ⟨0, false, true, 0x41280000, 0⟩) [] [] =
        .ok (F32.PackMsg 0x41280000 [], [])
    ∧ (F32.PackMsg 0x41280000 []).length = 0 + 5 := by
  have h := (claim_C7 ⟨0, false, true, 0x41280000, 0⟩ [] [] 0).2.1 rfl rfl
  exact ⟨h.1, by simpa using h.2.2⟩

/-- The low 34 bits of a `Time64` word are disjoint from the shifted
nanoseconds, so the Go expression `uint64(ns)<<34 | uint64(s)` is the sum of
the two fields when the seconds pattern fits in 34 bits. -/
lemma time64_word (s : Int) (ns : Nat) (h34 : tc 8 s / 2 ^ 34 = 0)
    (hns : ns < 2 ^ 30) :
    (ns * 2 ^ 34 % 2 ^ 64) ||| tc 8 s = ns * 2 ^ 34 + tc 8 s := by
  have h2 : tc 8 s < 2 ^ 34 := (Nat.div_eq_zero_iff (by positivity)).mp h34
  have h1 : ns * 2 ^ 34 < 2 ^ 64 := by
    calc ns * 2 ^ 34 < 2 ^ 30 * 2 ^ 34 := by
          exact Nat.mul_lt_mul_of_lt_of_le hns (le_refl _) (by positivity)
      _ = 2 ^ 64 := by norm_num
  rw [Nat.mod_eq_of_lt h1]
  have h3 := Nat.mul_add_lt_is_or h2 ns
  rw [mul_comm (2 ^ 34) ns] at h3
  exact h3.symm

/-- Claim C8: automatic timestamp form selection (lib.go 230-240).  If the
two's-complement `int64` pattern of the seconds has a bit outside the low
34 bits, the 96-bit form is used (15 bytes); else if the nanosecond
remainder is nonzero the 64-bit form is used — 10 bytes total, whose single
big-endian word carries the nanoseconds in the high 30 bits and the seconds
pattern in the low 34 bits; else the 32-bit form is used. -/
theorem claim_C8 (s : Int) (ns : Nat) (hns : ns < 1000000000) :
    (tc 8 s / 2 ^ 34 ≠ 0 →
      Time.PackMsg s ns [] = Time96.PackMsg s ns []
      ∧ (Time.PackMsg s ns []).length = 15)
    ∧ (tc 8 s / 2 ^ 34 = 0 → ns ≠ 0 →
      Time.PackMsg s ns [] = Time64.PackMsg s ns []
      ∧ Time.PackMsg s ns [] = [0xd7, 0xff] ++ beBytes 8 (ns * 2 ^ 34 + tc 8 s)
      ∧ (Time.PackMsg s ns []).length = 10
      ∧ beVal (beBytes 8 (ns * 2 ^ 34 + tc 8 s)) / 2 ^ 34 = ns
      ∧ beVal (beBytes 8 (ns * 2 ^ 34 + tc 8 s)) % 2 ^ 34 = tc 8 s)
    ∧ (tc 8 s / 2 ^ 34 = 0 → ns = 0 →
      Time.PackMsg s ns [] = Time32.PackMsg s []
      ∧ Time.PackMsg s ns [] = [0xd6, 0xff] ++ beBytes 4 (tc 4 s)) := by
  have hns30 : ns < 2 ^ 30 := by norm_num; omega
  refine ⟨fun h => ⟨?_, ?_⟩, fun h hz => ?_, fun h hz => ⟨?_, ?_⟩⟩
  · unfold Time.PackMsg
    rw [if_pos h]
  · unfold Time.PackMsg
    rw [if_pos h]
    simp [Time96.PackMsg, beBytes_length]
  · have hword := time64_word s ns h hns30
    have htc : tc 8 s < 2 ^ 34 := (Nat.div_eq_zero_iff (by positivity)).mp h
    have hnssum : ns * 2 ^ 34 + tc 8 s < 2 ^ 64 := by
      have hle : ns * 2 ^ 34 ≤ (2 ^ 30 - 1) * 2 ^ 34 :=
        Nat.mul_le_mul_right _ (by omega)
      norm_num at hle htc ⊢
      omega
    have henc : Time.PackMsg s ns [] = Time64.PackMsg s ns [] := by
      unfold Time.PackMsg
      rw [if_neg (by simp only [ne_eq, not_not]; exact h), if_pos hz]
    refine ⟨henc, ?_, ?_, ?_, ?_⟩
    · rw [henc]
      unfold Time64.PackMsg
      rw [hword]
      simp
    · rw [henc]
      simp [Time64.PackMsg, beBytes_length]
    · rw [beVal_beBytes, Nat.mod_eq_of_lt hnssum]
      norm_num at htc ⊢
      omega
    · rw [beVal_beBytes, Nat.mod_eq_of_lt hnssum]
      norm_num at htc ⊢
      omega
  · unfold Time.PackMsg
    rw [if_neg (by simp only [ne_eq, not_not]; exact h), if_neg (by simp only [ne_eq, not_not]; exact hz)]
  · unfold Time.PackMsg
    rw [if_neg (by simp only [ne_eq, not_not]; exact h), if_neg (by simp only [ne_eq, not_not]; exact hz)]
    simp [Time32.PackMsg]

/-- Witness for claim C8 at the repository test's timestamp
(1996-02-29T10:20:30.000000040Z: 825589230 seconds, 40 nanoseconds — the
64-bit form, 10 bytes) and at 2^34 seconds (the 96-bit form). -/
theorem claim_C8_witness :
    (Time.PackMsg 825589230 40 []).length = 10
    ∧ Time.PackMsg 17179869184 0 [] = Time96.PackMsg 17179869184 0 [] := by
  constructor
  · exact ((claim_C8 825589230 40 (by norm_num)).2.1 (by decide) (by decide)).2.2.1
  · exact ((claim_C8 17179869184 0 (by norm_num)).1 (by decide)).1

/-- A chain of `k` nested representation-overrides ending in `v`: each layer
is a value whose `__msgpack` metafield returns the next layer. -/
def overrideChain : Nat → LValue → LValue
  | 0, v => v
  | k + 1, v => .withOverride (overrideChain k v)

lemma encFuel_overrideChain (k : Nat) (v : LValue) :
    encFuel (overrideChain k v) = k + encFuel v := by
  induction k with
  | zero => simp [overrideChain]
  | succ k ih => simp [overrideChain, encFuel, ih]; omega

lemma lmEncode_overrideChain (k : Nat) :
    ∀ fuel v buf dupe,
      lmEncode (fuel + k) (overrideChain k v) buf dupe = lmEncode fuel v buf dupe := by
  induction k with
  | zero => intro fuel v buf dupe; rfl
  | succ k ih =>
    intro fuel v buf dupe
    have hstep :
        lmEncode ((fuel + k) + 1) (.withOverride (overrideChain k v)) buf dupe =
          lmEncode (fuel + k) (overrideChain k v) buf dupe := by
      simp [lmEncode]
    calc lmEncode (fuel + (k + 1)) (overrideChain (k + 1) v) buf dupe
        = lmEncode ((fuel + k) + 1) (.withOverride (overrideChain k v)) buf dupe := by
          rw [show fuel + (k + 1) = (fuel + k) + 1 by omega]
          rfl
      _ = lmEncode (fuel + k) (overrideChain k v) buf dupe := hstep
      _ = lmEncode fuel v buf dupe := ih fuel v buf dupe

/-- Claim C10: the dispatcher resolves representation-overrides by invoking
the override and re-checking the substitute until an override-free value is
reached — encoding a `k`-deep override chain equals encoding the final
value (at correspondingly reduced fuel) — and in particular a value whose
override chain ends in the plain number 1 encodes to exactly the bytes of
encoding the number 1 directly. -/
theorem claim_C10 :
    (∀ k fuel v buf dupe,
      lmEncode (fuel + k) (overrideChain k v) buf dupe = lmEncode fuel v buf dupe)
    ∧ (∀ k, MsgEncode (overrideChain k (.num (intNum 1))) = MsgEncode (.num (intNum 1))) := by
  refine ⟨fun k => lmEncode_overrideChain k, fun k => ?_⟩
  unfold MsgEncode
  rw [encFuel_overrideChain]
  rw [show k + encFuel (.num (intNum 1)) = encFuel (.num (intNum 1)) + k by omega]
  rw [lmEncode_overrideChain k (encFuel (.num (intNum 1))) (.num (intNum 1)) [] []]

lemma tableIdsP_append (a b : List (LValue × LValue)) :
    tableIdsP (a ++ b) = tableIdsP a ++ tableIdsP b := by
  induction a with
  | nil => simp [tableIdsP]
  | cons x xs ih =>
    obtain ⟨k, v⟩ := x
    simp [tableIdsP, ih]

lemma tableIdsP_arrayEntries (l : List LValue) :
    ∀ i, tableIdsP (arrayEntries i l) = tableIdsL l := by
  induction l with
  | nil => intro i; rfl
  | cons x xs ih =>
    intro i
    show tableIds (.num (intNum i)) ++ tableIds x ++ tableIdsP (arrayEntries (i + 1) xs)
        = tableIds x ++ tableIdsL xs
    rw [ih]
    rfl

lemma forEachPairs_ids (t : LTable) :
    tableIdsP (forEachPairs t) = tableIdsL t.arr ++ tableIdsP t.hash := by
  unfold forEachPairs
  rw [tableIdsP_append, tableIdsP_arrayEntries]

lemma getD_range_map (l : List LValue) :
    (List.range l.length).map (fun j => l.getD j LValue.nil) = l := by
  induction l with
  | nil => simp
  | cons x xs ih =>
    rw [List.length_cons, List.range_succ_eq_map]
    simp only [List.map_cons, List.map_map]
    have hf : ((fun j => (x :: xs).getD j LValue.nil) ∘ Nat.succ)
        = fun j => xs.getD j LValue.nil := rfl
    rw [hf, ih]
    rfl

lemma elems_eq_arr (t : LTable) :
    (List.range t.arr.length).map (fun i => t.rawGetInt (i + 1)) = t.arr := by
  have hf : (fun i => t.rawGetInt (i + 1)) = fun j => t.arr.getD j LValue.nil := by
    funext j
    simp [LTable.rawGetInt]
  rw [hf, getD_range_map]

/-- The invariant threaded through the cycle-guard proof: the call does not
raise the cycle error, and on success every identity in the returned dupe
set was either already tracked or occurs in the encoded value. -/
def CycleFree (res : Except EncErr (List Nat × List Nat)) (dupe ids : List Nat) : Prop :=
  res ≠ .error .cycle ∧
  ∀ buf' dupe', res = .ok (buf', dupe') → ∀ x ∈ dupe', x ∈ dupe ∨ x ∈ ids

lemma cycleFree_pure (buf dupe ids : List Nat) :
    CycleFree (.ok (buf, dupe)) dupe ids := by
  constructor
  · simp
  · intro buf' dupe' h x hx
    simp only [Except.ok.injEq, Prod.mk.injEq] at h
    rw [h.2]
    exact Or.inl hx

lemma cycleFree_err (e : EncErr) (he : e ≠ .cycle) (dupe ids : List Nat) :
    CycleFree (.error e) dupe ids := by
  constructor
  · intro h
    simp only [Except.error.injEq] at h
    exact he h
  · intro buf' dupe' h
    simp at h

lemma markDupe_not_mem {dupe : List Nat} {id : Nat} (h : id ∉ dupe) :
    markDupe dupe id = .ok (id :: dupe) := by
  unfold markDupe
  rw [if_neg]
  simp [h]

/-- The cycle guard is sound and complete on identity-distinct input: for
every fuel, a value whose table identities are pairwise distinct and
disjoint from the incoming dupe set never produces the cycle error, and on
success the outgoing dupe set only grows by identities of the value. -/
theorem noCycleAux : ∀ fuel : Nat,
    (∀ v buf dupe, (tableIds v).Nodup → (∀ x ∈ tableIds v, x ∉ dupe) →
      CycleFree (lmEncode fuel v buf dupe) dupe (tableIds v))
    ∧ (∀ l buf dupe, (tableIdsL l).Nodup → (∀ x ∈ tableIdsL l, x ∉ dupe) →
      CycleFree (lmEncodeList fuel l buf dupe) dupe (tableIdsL l))
    ∧ (∀ ps buf dupe, (tableIdsP ps).Nodup → (∀ x ∈ tableIdsP ps, x ∉ dupe) →
      CycleFree (lmEncodePairs fuel ps buf dupe) dupe (tableIdsP ps))
    ∧ (∀ t vlen buf dupe, (vlen = t.arr.length ∨ vlen = 0) →
      (tableIdsT t).Nodup → (∀ x ∈ tableIdsT t, x ∉ dupe) →
      CycleFree (lmEncodeArray fuel t vlen buf dupe) dupe (tableIdsT t))
    ∧ (∀ t buf dupe, (tableIdsT t).Nodup → (∀ x ∈ tableIdsT t, x ∉ dupe) →
      CycleFree (lmEncodeMap fuel t buf dupe) dupe (tableIdsT t)) := by
  intro fuel
  induction fuel with
  | zero =>
    refine ⟨?_, ?_, ?_, ?_, ?_⟩ <;> intros <;> exact cycleFree_err _ (by simp) _ _
  | succ fuel ih =>
    obtain ⟨ihV, ihL, ihP, ihA, ihM⟩ := ih
    refine ⟨?_, ?_, ?_, ?_, ?_⟩
    · -- lmEncode
      intro v buf dupe hnd hdisj
      cases v with
      | withOverride sub => exact ihV sub buf dupe hnd hdisj
      | nil => exact cycleFree_pure _ _ _
      | bool b => exact cycleFree_pure _ _ _
      | num n => exact cycleFree_pure _ _ _
      | str s => exact cycleFree_pure _ _ _
      | table t =>
        show CycleFree
          (if t.objLen = 0 then lmEncodeMap fuel t buf dupe
           else lmEncodeArray fuel t t.objLen buf dupe) dupe (tableIdsT t)
        by_cases h0 : t.objLen = 0
        · rw [if_pos h0]
          exact ihM t buf dupe hnd hdisj
        · rw [if_neg h0]
          exact ihA t t.objLen buf dupe (Or.inl rfl) hnd hdisj
      | udata u =>
        cases u with
        | raw s => exact cycleFree_pure _ _ _
        | strM s => exact cycleFree_pure _ _ _
        | binM s => exact cycleFree_pure _ _ _
        | signedM i => exact cycleFree_pure _ _ _
        | unsignedM u' => exact cycleFree_pure _ _ _
        | f32M bits => exact cycleFree_pure _ _ _
        | f64M bits => exact cycleFree_pure _ _ _
        | time32M s => exact cycleFree_pure _ _ _
        | time64M s ns => exact cycleFree_pure _ _ _
        | time96M s ns => exact cycleFree_pure _ _ _
        | timeM s ns => exact cycleFree_pure _ _ _
        | extM x data => exact cycleFree_pure _ _ _
        | arrayM t? =>
          cases t? with
          | none => exact cycleFree_pure _ _ _
          | some t => exact ihA t 0 buf dupe (Or.inr rfl) hnd hdisj
        | mapM t? =>
          cases t? with
          | none => exact cycleFree_pure _ _ _
          | some t => exact ihM t buf dupe hnd hdisj
        | goStr s => exact cycleFree_pure _ _ _
        | goBytes s => exact cycleFree_pure _ _ _
        | goU64 u' => exact cycleFree_pure _ _ _
        | goI64 i => exact cycleFree_pure _ _ _
        | goTime s ns => exact cycleFree_pure _ _ _
        | goOther => exact cycleFree_err _ (by simp) _ _
    · -- lmEncodeList
      intro l buf dupe hnd hdisj
      cases l with
      | nil => exact cycleFree_pure _ _ _
      | cons x xs =>
        have hids : tableIdsL (x :: xs) = tableIds x ++ tableIdsL xs := rfl
        rw [hids] at hnd hdisj ⊢
        rw [List.nodup_append] at hnd
        obtain ⟨hndx, hndxs, hdisjxxs⟩ := hnd
        have hx := ihV x buf dupe hndx
          (fun y hy => hdisj y (List.mem_append.mpr (Or.inl hy)))
        cases hres : lmEncode fuel x buf dupe with
        | error e =>
          have hred : lmEncodeList (fuel + 1) (x :: xs) buf dupe = .error e := by
            simp [lmEncodeList, hres]
          rw [hred]
          refine cycleFree_err e (fun hc => ?_) _ _
          rw [hres, hc] at hx
          exact hx.1 rfl
        | ok pr =>
          obtain ⟨buf', dupe'⟩ := pr
          have hsub := hx.2 buf' dupe' hres
          have hred : lmEncodeList (fuel + 1) (x :: xs) buf dupe =
              lmEncodeList fuel xs buf' dupe' := by
            simp [lmEncodeList, hres]
          rw [hred]
          have hdisj2 : ∀ y ∈ tableIdsL xs, y ∉ dupe' := by
            intro y hy hymem
            rcases hsub y hymem with hmem | hmem
            · exact hdisj y (List.mem_append.mpr (Or.inr hy)) hmem
            · exact hdisjxxs hmem hy
          have hxs := ihL xs buf' dupe' hndxs hdisj2
          refine ⟨hxs.1, ?_⟩
          intro b2 d2 hok y hy
          rcases hxs.2 b2 d2 hok y hy with h | h
          · rcases hsub y h with h' | h'
            · exact Or.inl h'
            · exact Or.inr (List.mem_append.mpr (Or.inl h'))
          · exact Or.inr (List.mem_append.mpr (Or.inr h))
    · -- lmEncodePairs
      intro ps buf dupe hnd hdisj
      cases ps with
      | nil => exact cycleFree_pure _ _ _
      | cons kv xs =>
        obtain ⟨k, v⟩ := kv
        have hids : tableIdsP ((k, v) :: xs) =
            tableIds k ++ (tableIds v ++ tableIdsP xs) := by
          show tableIds k ++ tableIds v ++ tableIdsP xs = _
          rw [List.append_assoc]
        rw [hids] at hnd hdisj ⊢
        rw [List.nodup_append] at hnd
        obtain ⟨hndk, hnd', hdisjk⟩ := hnd
        rw [List.nodup_append] at hnd'
        obtain ⟨hndv, hndxs, hdisjvxs⟩ := hnd'
        have hk := ihV k buf dupe hndk
          (fun y hy => hdisj y (List.mem_append.mpr (Or.inl hy)))
        cases hresk : lmEncode fuel k buf dupe with
        | error e =>
          have hred : lmEncodePairs (fuel + 1) ((k, v) :: xs) buf dupe = .error e := by
            simp [lmEncodePairs, hresk]
          rw [hred]
          refine cycleFree_err e (fun hc => ?_) _ _
          rw [hresk, hc] at hk
          exact hk.1 rfl
        | ok pr =>
          obtain ⟨buf', dupe'⟩ := pr
          have hsubk := hk.2 buf' dupe' hresk
          have hdisjv : ∀ y ∈ tableIds v, y ∉ dupe' := by
            intro y hy hymem
            rcases hsubk y hymem with hmem | hmem
            · exact hdisj y (List.mem_append.mpr (Or.inr (List.mem_append.mpr (Or.inl hy)))) hmem
            · exact hdisjk hmem (List.mem_append.mpr (Or.inl hy))
          have hv := ihV v buf' dupe' hndv hdisjv
          cases hresv : lmEncode fuel v buf' dupe' with
          | error e =>
            have hred : lmEncodePairs (fuel + 1) ((k, v) :: xs) buf dupe = .error e := by
              simp [lmEncodePairs, hresk, hresv]
            rw [hred]
            refine cycleFree_err e (fun hc => ?_) _ _
            rw [hresv, hc] at hv
            exact hv.1 rfl
          | ok pr2 =>
            obtain ⟨buf'', dupe''⟩ := pr2
            have hsubv := hv.2 buf'' dupe'' hresv
            have hred : lmEncodePairs (fuel + 1) ((k, v) :: xs) buf dupe =
                lmEncodePairs fuel xs buf'' dupe'' := by
              simp [lmEncodePairs, hresk, hresv]
            rw [hred]
            have hdisj2 : ∀ y ∈ tableIdsP xs, y ∉ dupe'' := by
              intro y hy hymem
              rcases hsubv y hymem with hmem | hmem
              · rcases hsubk y hmem with hmem' | hmem'
                · exact hdisj y
                    (List.mem_append.mpr (Or.inr (List.mem_append.mpr (Or.inr hy)))) hmem'
                · exact hdisjk hmem' (List.mem_append.mpr (Or.inr hy))
              · exact hdisjvxs hmem hy
            have hxs := ihP xs buf'' dupe'' hndxs hdisj2
            refine ⟨hxs.1, ?_⟩
            intro b2 d2 hok y hy
            rcases hxs.2 b2 d2 hok y hy with h | h
            · rcases hsubv y h with h' | h'
              · rcases hsubk y h' with h'' | h''
                · exact Or.inl h''
                · exact Or.inr (List.mem_append.mpr (Or.inl h''))
              · exact Or.inr (List.mem_append.mpr (Or.inr (List.mem_append.mpr (Or.inl h'))))
            · exact Or.inr (List.mem_append.mpr (Or.inr (List.mem_append.mpr (Or.inr h))))
    · -- lmEncodeArray
      intro t vlen buf dupe hvlen hnd hdisj
      obtain ⟨tid, arr, hash⟩ := t
      have hids : tableIdsT ⟨tid, arr, hash⟩ = tid :: (tableIdsL arr ++ tableIdsP hash) := rfl
      rw [hids] at hnd hdisj ⊢
      rw [List.nodup_cons] at hnd
      obtain ⟨htidnot, hnd'⟩ := hnd
      rw [List.nodup_append] at hnd'
      obtain ⟨hndarr, hndhash, hdisjah⟩ := hnd'
      have htid : tid ∉ dupe := hdisj tid (List.mem_cons_self _ _)
      have hmark : markDupe dupe (LTable.mk tid arr hash).id = .ok (tid :: dupe) :=
        markDupe_not_mem htid
      have hred : lmEncodeArray (fuel + 1) ⟨tid, arr, hash⟩ vlen buf dupe =
          lmEncodeList fuel
            ((List.range vlen).map fun i => (LTable.mk tid arr hash).rawGetInt (i + 1))
            (buf ++ arrayHeader vlen) (tid :: dupe) := by
        simp [lmEncodeArray, hmark]
      rw [hred]
      have hdisj2 : ∀ y ∈ tableIdsL arr, y ∉ tid :: dupe := by
        intro y hy hymem
        rcases List.mem_cons.mp hymem with h | h
        · exact htidnot (h ▸ List.mem_append.mpr (Or.inl hy))
        · exact hdisj y (List.mem_cons_of_mem _ (List.mem_append.mpr (Or.inl hy))) h
      rcases hvlen with hvl | hvl
      · have harr : (LTable.mk tid arr hash).arr = arr := rfl
        rw [hvl]
        rw [show (LTable.mk tid arr hash).arr.length = arr.length from rfl]
        rw [show ((List.range arr.length).map
            fun i => (LTable.mk tid arr hash).rawGetInt (i + 1)) =
            (List.range (LTable.mk tid arr hash).arr.length).map
            (fun i => (LTable.mk tid arr hash).rawGetInt (i + 1)) from rfl]
        rw [elems_eq_arr ⟨tid, arr, hash⟩]
        have hl := ihL arr (buf ++ arrayHeader arr.length) (tid :: dupe) hndarr hdisj2
        refine ⟨hl.1, ?_⟩
        intro b2 d2 hok y hy
        rcases hl.2 b2 d2 hok y hy with h | h
        · rcases List.mem_cons.mp h with h' | h'
          · exact Or.inr (h' ▸ List.mem_cons_self _ _)
          · exact Or.inl h'
        · exact Or.inr (List.mem_cons_of_mem _ (List.mem_append.mpr (Or.inl h)))
      · rw [hvl]
        have hl := ihL [] (buf ++ arrayHeader 0) (tid :: dupe) (by simp [tableIdsL])
          (by intro y hy; simp [tableIdsL] at hy)
        refine ⟨hl.1, ?_⟩
        intro b2 d2 hok y hy
        rcases hl.2 b2 d2 hok y hy with h | h
        · rcases List.mem_cons.mp h with h' | h'
          · exact Or.inr (h' ▸ List.mem_cons_self _ _)
          · exact Or.inl h'
        · simp [tableIdsL] at h
    · -- lmEncodeMap
      intro t buf dupe hnd hdisj
      obtain ⟨tid, arr, hash⟩ := t
      have hids : tableIdsT ⟨tid, arr, hash⟩ = tid :: (tableIdsL arr ++ tableIdsP hash) := rfl
      rw [hids] at hnd hdisj ⊢
      rw [List.nodup_cons] at hnd
      obtain ⟨htidnot, hnd'⟩ := hnd
      have htid : tid ∉ dupe := hdisj tid (List.mem_cons_self _ _)
      have hmark : markDupe dupe (LTable.mk tid arr hash).id = .ok (tid :: dupe) :=
        markDupe_not_mem htid
      have hdisj2 : ∀ y ∈ tableIdsP (forEachPairs ⟨tid, arr, hash⟩), y ∉ tid :: dupe := by
        intro y hy hymem
        rw [forEachPairs_ids] at hy
        rcases List.mem_cons.mp hymem with h | h
        · exact htidnot (h ▸ hy)
        · exact hdisj y (List.mem_cons_of_mem _ hy) h
      have hnd2 : (tableIdsP (forEachPairs ⟨tid, arr, hash⟩)).Nodup := by
        rw [forEachPairs_ids]
        exact hnd'
      have hp := ihP (forEachPairs ⟨tid, arr, hash⟩) [] (tid :: dupe) hnd2 hdisj2
      cases hres : lmEncodePairs fuel (forEachPairs ⟨tid, arr, hash⟩) [] (tid :: dupe) with
      | error e =>
        have hred : lmEncodeMap (fuel + 1) ⟨tid, arr, hash⟩ buf dupe = .error e := by
          simp [lmEncodeMap, hmark, hres]
        rw [hred]
        refine cycleFree_err e (fun hc => ?_) _ _
        rw [hres, hc] at hp
        exact hp.1 rfl
      | ok pr =>
        obtain ⟨mapbuf, dupe''⟩ := pr
        have hsub := hp.2 mapbuf dupe'' hres
        have hred : lmEncodeMap (fuel + 1) ⟨tid, arr, hash⟩ buf dupe =
            .ok (buf ++ mapHeader (forEachPairs ⟨tid, arr, hash⟩).length ++ mapbuf,
              dupe'') := by
          simp [lmEncodeMap, hmark, hres]
        rw [hred]
        refine ⟨by simp, ?_⟩
        intro b2 d2 hok y hy
        simp only [Except.ok.injEq, Prod.mk.injEq] at hok
        rw [← hok.2] at hy
        rcases hsub y hy with h | h
        · rcases List.mem_cons.mp h with h' | h'
          · exact Or.inr (h' ▸ List.mem_cons_self _ _)
          · exact Or.inl h'
        · rw [forEachPairs_ids] at h
          exact Or.inr (List.mem_cons_of_mem _ h)

/-- Claim C9: within one top-level encode call, re-encountering a container
identity raises the cycle error — both for shared substructure (the same
identity in two array slots, second conjunct) and for a self-referential
container (a table whose slot carries its own identity, the unrolled view
of a true cycle, third conjunct) — while an encode of a value whose table
identities are pairwise distinct (and disjoint from the tracked set) never
raises it, at any fuel; and the top-level entry point always starts from
the empty tracking set, so tracking is per-call. -/
theorem claim_C9 :
    (∀ fuel v buf dupe, (tableIds v).Nodup → (∀ x ∈ tableIds v, x ∉ dupe) →
      lmEncode fuel v buf dupe ≠ .error .cycle)
    ∧ (∀ fuel a i, a ≠ i →
      lmEncode (fuel + 6)
        (.table ⟨a, [.table ⟨i, [], []⟩, .table ⟨i, [], []⟩], []⟩) [] [] = .error .cycle)
    ∧ (∀ fuel i arr hash hash2,
      lmEncode (fuel + 5) (.table ⟨i, [.table ⟨i, arr, hash⟩], hash2⟩) [] []
        = .error .cycle)
    ∧ (∀ v, MsgEncode v = Prod.fst <$> lmEncode (encFuel v) v [] []) := by
  refine ⟨fun fuel v buf dupe hnd hdisj => ((noCycleAux fuel).1 v buf dupe hnd hdisj).1,
    fun fuel a i hne => ?_, fun fuel i arr hash hash2 => ?_, fun v => rfl⟩
  · have hne' : ¬ (i = a) := fun h => hne h.symm
    simp [lmEncode, lmEncodeArray, lmEncodeList, lmEncodeMap, lmEncodePairs, markDupe,
      LTable.objLen, LTable.arr, LTable.id, LTable.rawGetInt, forEachPairs, arrayEntries,
      arrayHeader, mapHeader, hne']
  · by_cases h0 : arr.length = 0
    · simp [lmEncode, lmEncodeArray, lmEncodeList, lmEncodeMap, lmEncodePairs, markDupe,
        LTable.objLen, LTable.arr, LTable.id, LTable.rawGetInt, forEachPairs, arrayEntries,
        arrayHeader, mapHeader, h0]
    · simp [lmEncode, lmEncodeArray, lmEncodeList, lmEncodeMap, lmEncodePairs, markDupe,
        LTable.objLen, LTable.arr, LTable.id, LTable.rawGetInt, forEachPairs, arrayEntries,
        arrayHeader, mapHeader, h0]

/-- Witness for claim C9: a two-level tree with distinct identities 0 and 1
never raises the cycle error, while the same table identity 1 in both slots
of an array raises it. -/
theorem claim_C9_witness :
    lmEncode 7 (.table ⟨0, [.table ⟨1, [], []⟩], []⟩) [] [] ≠ .error .cycle
    ∧ lmEncode 6
        (.table ⟨0, [.table ⟨1, [], []⟩, .table ⟨1, [], []⟩], []⟩) [] []
        = .error .cycle := by
  constructor
  · exact claim_C9.1 7 (.table ⟨0, [.table ⟨1, [], []⟩], []⟩) [] [] (by decide)
      (by decide)
  · exact claim_C9.2.1 0 0 1 (by decide)

end Gluamsgpack

